import Mathlib

/-!
Verification of the natural-language specification of `outlines-core`
against the repository's code.

The repository ships the Python surface (tests under `src/tests/`, numeric
kernels under `src/outlines_core/kernels/`); the compiled core that
implements `Vocabulary`, `Index` and `Guide` is not part of the source
tree.  Definitions for the core are therefore modelled from the
specification (§3, §4 of `spec.md`), with the repository's own tests
pinning the observable behaviour wherever they are more precise than the
spec; every such place is called out in the doc comment of the
corresponding definition.  The numeric kernels are translated directly
from `src/outlines_core/kernels/numpy.py` and `torch.py`.

States, token ids and bytes are modelled as `Nat`; machine words are
`Nat` taken modulo `2 ^ 32` where it matters; fallible operations return
`Except GuideError` / `Option`.
-/

deriving instance DecidableEq for Except

namespace OutlinesCore

/-- Error kinds surfaced by the core (spec §7). Only the kinds exercised by
the claims are modelled. -/
inductive GuideError where
  | noTransition
  | rollbackOverflow
  | invalidElementSize
  | invalidBufferSize
  deriving DecidableEq, Repr

/-- Modelled from the spec: the `Index` data structure (spec §3) — the Rust
implementation is not under `src/`.  Tuple of initial state, final-state
set, per-state transition map `token_id → next_state`, and the EOS token
id the index was built with.  Transition maps are association lists,
matching the spec's deterministic materialization. -/
structure Index where
  initialState : Nat
  finalStates : List Nat
  transitions : List (Nat × List (Nat × Nat))
  eosTokenId : Nat
  deriving DecidableEq, Repr

/-- Modelled from the spec: `Index.is_final_state` (spec §4.3). -/
def Index.isFinalState (idx : Index) (s : Nat) : Bool :=
  idx.finalStates.contains s

/-- Modelled from the spec: the transition map of a state, `T[s]`
(spec §3); `none` when `s` is not a key of `transitions`. -/
def Index.transMap (idx : Index) (s : Nat) : Option (List (Nat × Nat)) :=
  idx.transitions.lookup s

/-- Modelled from the spec: `Index.get_next_state` (spec §4.3) — the raw
transition-map lookup, `none` when the token is disallowed. -/
def Index.getNextState (idx : Index) (s tid : Nat) : Option Nat :=
  (idx.transMap s).bind (fun m => m.lookup tid)

/-- Modelled from the spec: `Index.get_allowed_tokens` (spec §4.3) — the
token ids present in `T[s]`. -/
def Index.getAllowedTokens (idx : Index) (s : Nat) : List Nat :=
  ((idx.transMap s).getD []).map Prod.fst

/-- Modelled from the spec: `Guide` state `(index_ref, current_state,
rollback_buffer)` (spec §3) plus the `max_rollback` bound it was
constructed with.  The rollback buffer holds the most recent state
first. -/
structure Guide where
  index : Index
  currentState : Nat
  rollback : List Nat
  maxRollback : Nat
  deriving DecidableEq, Repr

/-- Modelled from the spec: `Guide(index, max_rollback=0)` (spec §4.4) —
`current = index.initial_state`, rollback buffer empty. -/
def Guide.init (idx : Index) (maxRollback : Nat := 0) : Guide :=
  ⟨idx, idx.initialState, [], maxRollback⟩

/-- Modelled from the spec: `Guide.get_state`. -/
def Guide.getState (g : Guide) : Nat :=
  g.currentState

/-- Modelled from the spec: `Guide.get_tokens` (spec §4.4) — the allowed
tokens of the current state. -/
def Guide.getTokens (g : Guide) : List Nat :=
  g.index.getAllowedTokens g.currentState

/-- Modelled from the spec: `Guide.advance(tid)` (spec §4.4), amended by
the repository's tests.  The spec says the advance succeeds whenever
`T[current]` contains `tid`; the tests pin a stricter behaviour: the EOS
id never yields a transition, so `advance(eos_id)` fails with
*NoTransition* even from a final state whose transition map holds the EOS
self-loop (`src/tests/test_guide.py::test_interface` expects
`advance(eos_token_id)` to raise from the final state, and
`src/tests/test_guide.py::test_accepts_tokens_correctness` expects the
sequence `[2, 3]` with `eos = 3` to be rejected).  On success the prior
state is pushed onto the rollback ring (dropping the oldest if full) and
the allowed tokens of the new state are returned. -/
def Guide.advance (g : Guide) (tid : Nat) : Except GuideError (Guide × List Nat) :=
  if tid = g.index.eosTokenId then
    .error .noTransition
  else
    match g.index.getNextState g.currentState tid with
    | none => .error .noTransition
    | some s =>
        let g2 : Guide :=
          { g with
            currentState := s
            rollback := (g.currentState :: g.rollback).take g.maxRollback }
        .ok (g2, g.index.getAllowedTokens s)

/-- Modelled from the spec: `Guide.rollback_state(n)` (spec §4.4) — fails
with *RollbackOverflow* when `n` exceeds the recorded history, otherwise
pops `n` states and the last popped becomes `current`. -/
def Guide.rollbackState (g : Guide) (n : Nat) : Except GuideError Guide :=
  if g.rollback.length < n then
    .error .rollbackOverflow
  else if n = 0 then
    .ok g
  else
    .ok { g with
          currentState := g.rollback.getD (n - 1) g.currentState
          rollback := g.rollback.drop n }

/-- Modelled from the spec: `Guide.is_finished` (spec §4.4), amended by
the repository's tests.  The spec defines it as "current state is final
AND the last-emitted token is EOS"; the tests pin the weaker condition
"current state is final": `src/tests/test_guide.py::test_interface`
asserts `is_finished()` immediately after `advance(1)` first enters the
final state with the non-EOS token `1`, and
`src/tests/fsm/test_guide.py::test_stop_at_eos` does the same. -/
def Guide.isFinished (g : Guide) : Bool :=
  g.index.isFinalState g.currentState

/-- Modelled from the spec: `Guide.accepts_tokens(seq)` (spec §4.4) —
fold `advance` over a hypothetical copy, true iff no step fails. -/
def Guide.acceptsTokens (g : Guide) : List Nat → Bool
  | [] => true
  | tid :: rest =>
      match g.advance tid with
      | .error _ => false
      | .ok (g2, _) => g2.acceptsTokens rest

/-- Folding `advance` over a whole sequence, keeping the final guide;
used to state what `accepts_tokens` decides. -/
def Guide.advanceSeq (g : Guide) : List Nat → Except GuideError Guide
  | [] => .ok g
  | tid :: rest =>
      match g.advance tid with
      | .error e => .error e
      | .ok (g2, _) => g2.advanceSeq rest

/-- Vocabulary error kinds (spec §4.1 / §7). -/
inductive VocabError where
  | eosInsert
  | eosInValues
  deriving DecidableEq, Repr

/-- Modelled from the spec: the `Vocabulary` data structure (spec §3) —
the Rust implementation is not under `src/`.  An ordered map from token
byte-string to the ordered list of token ids sharing that spelling, plus
the reserved EOS id.  Bytes are `Nat` values below 256. -/
structure Vocabulary where
  eosTokenId : Nat
  tokens : List (List Nat × List Nat)
  deriving DecidableEq, Repr

/-- Modelled from the spec: `Vocabulary.get(token)` (spec §4.1) — the id
bucket for a byte-string spelling, or nothing. -/
def Vocabulary.get (v : Vocabulary) (key : List Nat) : Option (List Nat) :=
  v.tokens.lookup key

/-- Appending an id to the bucket of a key, creating the bucket at the end
when absent; helper for `Vocabulary.insert`. -/
def insertBucket (key : List Nat) (id : Nat) :
    List (List Nat × List Nat) → List (List Nat × List Nat)
  | [] => [(key, [id])]
  | (k, ids) :: rest =>
      if k = key then (k, ids ++ [id]) :: rest
      else (k, ids) :: insertBucket key id rest

/-- Modelled from the spec: `Vocabulary.insert(token, id)` (spec §4.1) —
appends `id` to the bucket for `token`, failing with *EOSInsert* when
`id` is the EOS id (`src/tests/test_vocabulary.py::test_insert_eos_token`). -/
def Vocabulary.insert (v : Vocabulary) (key : List Nat) (id : Nat) :
    Except VocabError Vocabulary :=
  if id = v.eosTokenId then .error .eosInsert
  else .ok { v with tokens := insertBucket key id v.tokens }

/-- Modelled from the spec: `Vocabulary.remove(token)` (spec §4.1) —
deletes the bucket if present; idempotent. -/
def Vocabulary.remove (v : Vocabulary) (key : List Nat) : Vocabulary :=
  { v with tokens := v.tokens.filter (fun p => p.1 ≠ key) }

/-- All token ids appearing across buckets, with multiplicity and in
bucket order. -/
def Vocabulary.allIds (v : Vocabulary) : List Nat :=
  (v.tokens.map Prod.snd).flatten

/-- Modelled from the spec: `Vocabulary.len()` (spec §4.1) — the number of
unique token ids present across all buckets, plus one for the EOS id.
The spec fixes this convention explicitly (§9, open question) and the
current tests pin it (`src/tests/test_vocabulary.py::
test_basic_vocabulary_interface` sees lengths 3, 4, 5); the legacy
`src/tests/fsm/test_vocabulary.py` asserted the count without the EOS,
which the spec supersedes. -/
def Vocabulary.len (v : Vocabulary) : Nat :=
  v.allIds.dedup.length + 1

/-- Modelled from the spec: UTF-8 encoding of one Unicode code point
(spec §4.2: "each UTF-8-encoded code point expanded to its byte
sequence"); text keys are interpreted through it (spec §3). -/
def utf8EncodeCp (c : Nat) : List Nat :=
  if c < 0x80 then [c]
  else if c < 0x800 then [0xC0 + c / 64, 0x80 + c % 64]
  else if c < 0x10000 then
    [0xE0 + c / 4096, 0x80 + c / 64 % 64, 0x80 + c % 64]
  else
    [0xF0 + c / 262144, 0x80 + c / 4096 % 64, 0x80 + c / 64 % 64, 0x80 + c % 64]

/-- UTF-8 encoding of a text key given as its code-point sequence. -/
def utf8Encode (cps : List Nat) : List Nat :=
  cps.flatMap utf8EncodeCp

/-- Modelled from the spec: a vocabulary key is either a text key (a
sequence of Unicode code points) or a raw byte key (spec §3). -/
inductive TokenKey where
  | text (cps : List Nat)
  | bytes (bs : List Nat)
  deriving DecidableEq, Repr

/-- Modelled from the spec: "string keys are coerced to UTF-8 bytes at the
boundary" (spec §9). -/
def TokenKey.toBytes : TokenKey → List Nat
  | .text cps => utf8Encode cps
  | .bytes bs => bs

/-- Modelled from the spec: `Vocabulary.new(eos_id, map)` (spec §4.1) —
coerces every key to bytes and fails with *EOSInValues* when the EOS id
appears among the values (spec §3 invariant (i)). -/
def Vocabulary.new (eos : Nat) (pairs : List (TokenKey × List Nat)) :
    Except VocabError Vocabulary :=
  if pairs.any (fun p => p.2.contains eos) then .error .eosInValues
  else .ok ⟨eos, pairs.map (fun p => (p.1.toBytes, p.2))⟩

/-- Modelled from the spec: lookup through either kind of key must answer
as the coerced byte key does (spec §3). -/
def Vocabulary.getKey (v : Vocabulary) (key : TokenKey) : Option (List Nat) :=
  v.get key.toBytes

example :
    Vocabulary.new 3 [(.text [49], [1]), (.text [97], [2])] =
      .ok ⟨3, [([49], [1]), ([97], [2])]⟩ := by decide

example :
    (Vocabulary.mk 3 [([49], [1]), ([97], [2])]).len = 3 := by decide

/-- The index the repository's tests pin exactly
(`src/tests/test_index.py::test_basic_interface`): regex `[1-9]` over
`eos = 3`, tokens `{"1": [1], "2": [2]}`; initial state `12`, final
states `{20}`, transitions `{12: {1: 20, 2: 20}, 20: {3: 20}}`. -/
def testIndex : Index :=
  ⟨12, [20], [(12, [(1, 20), (2, 20)]), (20, [(3, 20)])], 3⟩

/-- The structural invariants of an `Index` (spec §3): every final state
carries exactly the EOS self-loop, and a state whose transition map
mentions the EOS id is final. -/
def Index.WellFormed (idx : Index) : Prop :=
  (∀ s ∈ idx.finalStates, idx.transMap s = some [(idx.eosTokenId, s)]) ∧
    (∀ p ∈ idx.transitions, idx.eosTokenId ∈ p.2.map Prod.fst → p.1 ∈ idx.finalStates)

instance (idx : Index) : Decidable idx.WellFormed := by
  unfold Index.WellFormed
  infer_instance

example : testIndex.WellFormed := by decide

example : (Guide.init testIndex).getTokens = [1, 2] := by decide

example : (Guide.init testIndex).advance 1 =
    .ok (⟨testIndex, 20, [], 0⟩, [3]) := by decide

example : (Guide.init testIndex).acceptsTokens [2, 3] = false := by decide

/-- Modelled from the spec: one word-aligned write of `write_mask_into`
(spec §4.5) — the Rust implementation is not under `src/`.  The buffer of
`nElements` 32-bit words is overwritten to exactly encode the allowed
set: starting from all-zero words, each allowed token id `tid` with
`tid / 32 < nElements` ORs `1 <<< (tid % 32)` into word `tid / 32`
(spec §4.5: O(|allowed|) word-aligned writes; bits for ids beyond the
buffer are zero). -/
def maskStep (nElements : Nat) (buf : List Nat) (tid : Nat) : List Nat :=
  if tid / 32 < nElements then
    buf.set (tid / 32) (buf.getD (tid / 32) 0 ||| (1 <<< (tid % 32)))
  else buf

/-- The whole buffer write: zero words, then one `maskStep` per allowed
token. -/
def maskFill (tokens : List Nat) (nElements : Nat) : List Nat :=
  tokens.foldl (maskStep nElements) (List.replicate nElements 0)

/-- Modelled from the spec: `Guide.write_mask_into(ptr, n_elements,
element_size)` (spec §4.5).  `element_size` must be 4 and `n_elements ≥ 1`
(`src/tests/test_guide.py::test_write_mask_into_interface`); the pointer
checks (*InvalidDataPointer*, *InvalidDataPointerAlignment*) concern raw
memory and are outside this model.  `prior` is the buffer contents the
caller's pointer exposes; the spec says the call overwrites the entire
buffer, so the result does not depend on it. -/
def Guide.writeMaskInto (g : Guide) (prior : List Nat)
    (nElements elementSize : Nat) : Except GuideError (List Nat) :=
  if elementSize ≠ 4 then .error .invalidElementSize
  else if nElements = 0 then .error .invalidBufferSize
  else
    let _ := prior
    .ok (maskFill g.getTokens nElements)

example :
    (Guide.init testIndex).writeMaskInto [7] 1 4 = .ok [6] := by decide

/-- `allocate_token_bitmask(vocab_size)` translated from
`src/outlines_core/kernels/numpy.py` (and, identically,
`src/outlines_core/kernels/torch.py`): a `(1, (vocab_size + 31) // 32)`
buffer of 32-bit signed integers, every element `-1`. -/
def allocateTokenBitmask (vocabSize : Nat) : List (List Int) :=
  [List.replicate ((vocabSize + 31) / 32) (-1)]

/-- Two's-complement view of an `int32` mask word: the `Nat` in
`[0, 2 ^ 32)` whose bits are the word's bits, so that numpy's
`(mval >> bit) & 1` for `bit < 32` is `(int32Bits mval >>> bit) &&& 1`. -/
def int32Bits (m : Int) : Nat :=
  (m % (2 ^ 32 : Int)).toNat

/-- Inner bit loop of `_apply_token_bitmask_inplace_kernel` translated
from `src/outlines_core/kernels/numpy.py` (`for bit in range(32)`): `bit`
is the loop variable, the next argument the number of iterations left,
`base + bit` is `j`; reaching `j ≥ n_cols` is the `break` (indices only
grow, so stopping equals breaking), and a clear mask bit writes `ninf` at
`j`. -/
def applyBits {α : Type} (ninf : α) (mval : Nat) (base : Nat) :
    Nat → Nat → List α → List α
  | _, 0, r => r
  | bit, left + 1, r =>
      if base + bit < r.length then
        applyBits ninf mval base (bit + 1) left
          (if (mval >>> bit) &&& 1 = 0 then r.set (base + bit) ninf else r)
      else r

/-- Word loop of `_apply_token_bitmask_inplace_kernel` from
`src/outlines_core/kernels/numpy.py` (`for mi in range(mask_len)`):
`mval = mask[i, mi]`, `base = mi * 32`, then the bit loop. -/
def applyRowWords {α : Type} (ninf : α) (mrow : List Int) (maskLen : Nat)
    (row : List α) : List α :=
  (List.range maskLen).foldl
    (fun r mi => applyBits ninf (int32Bits (mrow.getD mi 0)) (mi * 32) 0 32 r)
    row

/-- `_apply_token_bitmask_inplace_kernel` translated from
`src/outlines_core/kernels/numpy.py`.  `ninf` stands for `-np.inf`; the
kernel never reads logits values, so the element type is a parameter.
`cutoff = 32 * mask.shape[1]`; columns past the cutoff are set to `ninf`
and sliced off before the loops (`logits[:, cutoff:] = -np.inf` under
`logits.shape[1] > cutoff`, a no-op otherwise, which `take`/`replicate`
reproduce row by row), and the row loop pairs each logits row with its
mask row. -/
def applyTokenBitmaskKernel {α : Type} (ninf : α) (logits : List (List α))
    (mask : List (List Int)) : List (List α) :=
  let maskLen := (mask.headD []).length
  let cutoff := 32 * maskLen
  (logits.zip mask).map
    (fun p =>
      applyRowWords ninf p.2 maskLen (p.1.take cutoff) ++
        List.replicate (p.1.length - cutoff) ninf)

example :
    applyTokenBitmaskKernel (0 : Int) [[1, 2, 3]] [[5]] = [[1, 0, 3]] := by
  decide

/-- Fuel-bounded base-128 digit expansion; the division chain shortens the
value, so any fuel of at least `n` yields the full expansion. -/
def encNatAux : Nat → Nat → List Nat
  | 0, n => [n]
  | fuel + 1, n =>
      if n < 128 then [n]
      else (n % 128 + 128) :: encNatAux fuel (n / 128)

/-- Modelled from the spec: the byte encoding of one natural number inside
the stable byte-serialization (spec §6, §9: a length-prefixed,
field-tagged binary format; the source pins only the round-trip, so a
little-endian base-128 varint with a continuation bit stands for the
field encoder).  Every emitted value is a byte (< 256). -/
def encNat (n : Nat) : List Nat :=
  encNatAux n n

/-- Decoder for `encNat`; returns the value and the remaining bytes. -/
def decNat : List Nat → Option (Nat × List Nat)
  | [] => none
  | b :: bs =>
      if b < 128 then some (b, bs)
      else
        match decNat bs with
        | none => none
        | some (m, rest) => some (b - 128 + 128 * m, rest)

/-- Length-prefixed encoding of a list, given a field encoder. -/
def encListWith {α : Type} (enc : α → List Nat) (xs : List α) : List Nat :=
  encNat xs.length ++ xs.foldr (fun x acc => enc x ++ acc) []

/-- Decoding a known number of consecutive fields. -/
def decCount {α : Type} (dec : List Nat → Option (α × List Nat)) :
    Nat → List Nat → Option (List α × List Nat)
  | 0, bs => some ([], bs)
  | n + 1, bs =>
      match dec bs with
      | none => none
      | some (x, bs2) =>
          match decCount dec n bs2 with
          | none => none
          | some (xs, rest) => some (x :: xs, rest)

/-- Decoder for `encListWith`: read the length, then that many fields. -/
def decListWith {α : Type} (dec : List Nat → Option (α × List Nat))
    (bs : List Nat) : Option (List α × List Nat) :=
  match decNat bs with
  | none => none
  | some (n, bs2) => decCount dec n bs2

/-- Field encoder for one vocabulary bucket `(token_bytes, ids)`. -/
def encBucket (p : List Nat × List Nat) : List Nat :=
  encListWith encNat p.1 ++ encListWith encNat p.2

/-- Decoder for `encBucket`. -/
def decBucket (bs : List Nat) : Option ((List Nat × List Nat) × List Nat) :=
  match decListWith decNat bs with
  | none => none
  | some (k, bs2) =>
      match decListWith decNat bs2 with
      | none => none
      | some (ids, rest) => some ((k, ids), rest)

/-- Modelled from the spec: `Vocabulary` byte serialization (spec §6) —
`eos_id` followed by the ordered buckets. -/
def Vocabulary.serialize (v : Vocabulary) : List Nat :=
  encNat v.eosTokenId ++ encListWith encBucket v.tokens

/-- Modelled from the spec: `Vocabulary` deserialization; fails on
malformed or trailing bytes. -/
def Vocabulary.deserialize (bs : List Nat) : Option Vocabulary :=
  match decNat bs with
  | none => none
  | some (eos, bs2) =>
      match decListWith decBucket bs2 with
      | none => none
      | some (toks, rest) => if rest = [] then some ⟨eos, toks⟩ else none

/-- Field encoder for one transition entry `(token_id, next_state)`. -/
def encEdge (p : Nat × Nat) : List Nat :=
  encNat p.1 ++ encNat p.2

/-- Decoder for `encEdge`. -/
def decEdge (bs : List Nat) : Option ((Nat × Nat) × List Nat) :=
  match decNat bs with
  | none => none
  | some (a, bs2) =>
      match decNat bs2 with
      | none => none
      | some (b, rest) => some ((a, b), rest)

/-- Field encoder for one state's row of the transition table. -/
def encRow (p : Nat × List (Nat × Nat)) : List Nat :=
  encNat p.1 ++ encListWith encEdge p.2

/-- Decoder for `encRow`. -/
def decRow (bs : List Nat) : Option ((Nat × List (Nat × Nat)) × List Nat) :=
  match decNat bs with
  | none => none
  | some (s, bs2) =>
      match decListWith decEdge bs2 with
      | none => none
      | some (m, rest) => some ((s, m), rest)

/-- Body of the `Index` encoding, reusable inside the `Guide` encoding. -/
def encIndexBody (idx : Index) : List Nat :=
  encNat idx.initialState ++ encListWith encNat idx.finalStates ++
    encListWith encRow idx.transitions ++ encNat idx.eosTokenId

/-- Decoder for `encIndexBody`. -/
def decIndexBody (bs : List Nat) : Option (Index × List Nat) :=
  match decNat bs with
  | none => none
  | some (init, bs2) =>
      match decListWith decNat bs2 with
      | none => none
      | some (finals, bs3) =>
          match decListWith decRow bs3 with
          | none => none
          | some (tr, bs4) =>
              match decNat bs4 with
              | none => none
              | some (eos, rest) => some (⟨init, finals, tr, eos⟩, rest)

/-- Modelled from the spec: `Index` byte serialization (spec §6). -/
def Index.serialize (idx : Index) : List Nat :=
  encIndexBody idx

/-- Modelled from the spec: `Index` deserialization; fails on malformed or
trailing bytes. -/
def Index.deserialize (bs : List Nat) : Option Index :=
  match decIndexBody bs with
  | none => none
  | some (idx, rest) => if rest = [] then some idx else none

/-- Modelled from the spec: `Guide` serialization captures
`(index, current_state, rollback_buffer)` (spec §6), together with the
rollback bound the guide was constructed with. -/
def Guide.serialize (g : Guide) : List Nat :=
  encIndexBody g.index ++ encNat g.currentState ++
    encListWith encNat g.rollback ++ encNat g.maxRollback

/-- Modelled from the spec: `Guide` deserialization; fails on malformed or
trailing bytes. -/
def Guide.deserialize (bs : List Nat) : Option Guide :=
  match decIndexBody bs with
  | none => none
  | some (idx, bs2) =>
      match decNat bs2 with
      | none => none
      | some (cur, bs3) =>
          match decListWith decNat bs3 with
          | none => none
          | some (rb, bs4) =>
              match decNat bs4 with
              | none => none
              | some (mr, rest) =>
                  if rest = [] then some ⟨idx, cur, rb, mr⟩ else none

example : Index.deserialize testIndex.serialize = some testIndex := by decide

theorem decNat_encNatAux (fuel : Nat) :
    ∀ n rest, n ≤ fuel → decNat (encNatAux fuel n ++ rest) = some (n, rest) := by
  induction fuel with
  | zero =>
      intro n rest hn
      have hn0 : n = 0 := Nat.le_zero.mp hn
      subst hn0
      simp [encNatAux, decNat]
  | succ fuel ih =>
      intro n rest hn
      by_cases h : n < 128
      · simp [encNatAux, h, decNat]
      · have hdiv : n / 128 ≤ fuel := by
          have : n / 128 < n := Nat.div_lt_self (by omega) (by omega)
          omega
        have hrec := ih (n / 128) rest hdiv
        simp only [encNatAux, if_neg h, List.cons_append]
        simp only [decNat, hrec]
        have hb : ¬ n % 128 + 128 < 128 := by omega
        simp only [if_neg hb]
        have : n % 128 + 128 - 128 + 128 * (n / 128) = n := by
          have := Nat.mod_add_div n 128
          omega
        rw [this]

theorem decNat_encNat (n : Nat) (rest : List Nat) :
    decNat (encNat n ++ rest) = some (n, rest) :=
  decNat_encNatAux n n rest (Nat.le_refl n)

theorem decCount_foldr {α : Type} (enc : α → List Nat)
    (dec : List Nat → Option (α × List Nat))
    (h : ∀ x rest, dec (enc x ++ rest) = some (x, rest)) :
    ∀ (xs : List α) (rest : List Nat),
      decCount dec xs.length
        (xs.foldr (fun x acc => enc x ++ acc) [] ++ rest) = some (xs, rest) := by
  intro xs
  induction xs with
  | nil => intro rest; simp [decCount]
  | cons x xs ih =>
      intro rest
      simp only [List.foldr_cons, List.length_cons, List.append_assoc, decCount,
        h x, ih rest]

theorem decListWith_encListWith {α : Type} (enc : α → List Nat)
    (dec : List Nat → Option (α × List Nat))
    (h : ∀ x rest, dec (enc x ++ rest) = some (x, rest))
    (xs : List α) (rest : List Nat) :
    decListWith dec (encListWith enc xs ++ rest) = some (xs, rest) := by
  simp only [encListWith, decListWith, List.append_assoc, decNat_encNat,
    decCount_foldr enc dec h xs rest]

theorem decBucket_encBucket (p : List Nat × List Nat) (rest : List Nat) :
    decBucket (encBucket p ++ rest) = some (p, rest) := by
  simp only [encBucket, decBucket, List.append_assoc,
    decListWith_encListWith encNat decNat decNat_encNat]

theorem decEdge_encEdge (p : Nat × Nat) (rest : List Nat) :
    decEdge (encEdge p ++ rest) = some (p, rest) := by
  simp only [encEdge, decEdge, List.append_assoc, decNat_encNat]

theorem decRow_encRow (p : Nat × List (Nat × Nat)) (rest : List Nat) :
    decRow (encRow p ++ rest) = some (p, rest) := by
  simp only [encRow, decRow, List.append_assoc, decNat_encNat,
    decListWith_encListWith encEdge decEdge decEdge_encEdge]

theorem decIndexBody_encIndexBody (idx : Index) (rest : List Nat) :
    decIndexBody (encIndexBody idx ++ rest) = some (idx, rest) := by
  simp only [encIndexBody, decIndexBody, List.append_assoc, decNat_encNat,
    decListWith_encListWith encNat decNat decNat_encNat,
    decListWith_encListWith encRow decRow decRow_encRow]

theorem vocabulary_deserialize_serialize (v : Vocabulary) :
    Vocabulary.deserialize v.serialize = some v := by
  have h := decListWith_encListWith encBucket decBucket decBucket_encBucket
    v.tokens []
  simp only [Vocabulary.serialize, Vocabulary.deserialize]
  rw [show encNat v.eosTokenId ++ encListWith encBucket v.tokens =
      encNat v.eosTokenId ++ (encListWith encBucket v.tokens ++ []) by
    simp]
  simp only [decNat_encNat, h]
  simp

theorem index_deserialize_serialize (idx : Index) :
    Index.deserialize idx.serialize = some idx := by
  have h := decIndexBody_encIndexBody idx []
  simp only [Index.serialize, Index.deserialize]
  rw [show encIndexBody idx = encIndexBody idx ++ [] by simp]
  simp only [h]
  simp

theorem guide_deserialize_serialize (g : Guide) :
    Guide.deserialize g.serialize = some g := by
  simp only [Guide.serialize, Guide.deserialize, List.append_assoc,
    decIndexBody_encIndexBody, decNat_encNat,
    decListWith_encListWith encNat decNat decNat_encNat]
  rw [show encNat g.maxRollback = encNat g.maxRollback ++ [] by simp]
  simp only [decNat_encNat]
  simp

theorem lookup_mem {β : Type} : ∀ {l : List (Nat × β)} {k : Nat} {b : β},
    l.lookup k = some b → (k, b) ∈ l := by
  intro l
  induction l with
  | nil => intro k b h; simp [List.lookup] at h
  | cons p l ih =>
      intro k b h
      obtain ⟨k1, b1⟩ := p
      cases hk : (k == k1) with
      | true =>
          simp only [List.lookup_cons, hk] at h
          have hkk : k = k1 := by simpa using hk
          have hbb : b1 = b := by simpa using h
          subst hkk; subst hbb
          exact List.mem_cons_self _ _
      | false =>
          simp only [List.lookup_cons, hk] at h
          exact List.mem_cons_of_mem _ (ih h)

theorem isFinalState_iff_mem (idx : Index) (s : Nat) :
    idx.isFinalState s = true ↔ s ∈ idx.finalStates := by
  simp [Index.isFinalState, List.contains, List.elem_eq_mem]

theorem wellFormed_final_transMap {idx : Index} {s : Nat}
    (hwf : idx.WellFormed) (hs : s ∈ idx.finalStates) :
    idx.transMap s = some [(idx.eosTokenId, s)] :=
  hwf.1 s hs

theorem wellFormed_eos_row_final {idx : Index} {s : Nat}
    {m : List (Nat × Nat)} (hwf : idx.WellFormed) (hm : idx.transMap s = some m)
    (heos : idx.eosTokenId ∈ m.map Prod.fst) : s ∈ idx.finalStates :=
  hwf.2 (s, m) (lookup_mem hm) heos

theorem advance_ok_elim {g g2 : Guide} {tid : Nat} {ts : List Nat}
    (hadv : g.advance tid = .ok (g2, ts)) :
    tid ≠ g.index.eosTokenId ∧
      g.index.getNextState g.currentState tid = some g2.currentState ∧
      g2 = { g with
             currentState := g2.currentState
             rollback := (g.currentState :: g.rollback).take g.maxRollback } ∧
      ts = g.index.getAllowedTokens g2.currentState := by
  by_cases heos : tid = g.index.eosTokenId
  · simp [Guide.advance, heos] at hadv
  · cases hns : g.index.getNextState g.currentState tid with
    | none => simp [Guide.advance, heos, hns] at hadv
    | some s =>
        simp only [Guide.advance, if_neg heos, hns] at hadv
        obtain ⟨hg2, hts⟩ :
            ({ g with
                currentState := s
                rollback := (g.currentState :: g.rollback).take g.maxRollback } :
              Guide) = g2 ∧ g.index.getAllowedTokens s = ts := by
          simpa using hadv
        subst hg2
        subst hts
        exact ⟨heos, by simp [hns], rfl, rfl⟩

theorem advance_ok_not_final {g g2 : Guide} {tid : Nat} {ts : List Nat}
    (hwf : g.index.WellFormed) (hadv : g.advance tid = .ok (g2, ts)) :
    g.index.isFinalState g.currentState = false := by
  obtain ⟨heos, hns, _, _⟩ := advance_ok_elim hadv
  cases hfin : g.index.isFinalState g.currentState with
  | false => rfl
  | true =>
      exfalso
      have hmem := (isFinalState_iff_mem _ _).mp hfin
      have hrow := wellFormed_final_transMap hwf hmem
      rw [Index.getNextState, hrow] at hns
      have hbeq : (tid == g.index.eosTokenId) = false := by simpa using heos
      simp [List.lookup_cons, hbeq] at hns

theorem acceptsTokens_eq_advanceSeq_isOk (g : Guide) (seq : List Nat) :
    g.acceptsTokens seq = (g.advanceSeq seq).isOk := by
  induction seq generalizing g with
  | nil => rfl
  | cons t ts ih =>
      simp only [Guide.acceptsTokens, Guide.advanceSeq]
      cases g.advance t with
      | error e => rfl
      | ok p => exact ih p.1

theorem acceptsTokens_rollback_independent (idx : Index) (s : Nat)
    (r1 r2 : List Nat) (m1 m2 : Nat) (seq : List Nat) :
    Guide.acceptsTokens ⟨idx, s, r1, m1⟩ seq =
      Guide.acceptsTokens ⟨idx, s, r2, m2⟩ seq := by
  induction seq generalizing s r1 r2 m1 m2 with
  | nil => rfl
  | cons t ts ih =>
      simp only [Guide.acceptsTokens, Guide.advance]
      by_cases heos : t = idx.eosTokenId
      · simp [heos]
      · simp only [if_neg heos]
        cases idx.getNextState s t with
        | none => rfl
        | some s2 => exact ih s2 _ _ _ _

/-- **C1, counterexample.**  The claim says `is_finished()` is false
immediately after an advance that first enters a final state via a
non-EOS token.  On the index the tests pin (regex `[1-9]`, `eos = 3`),
`advance(1)` from the initial guide succeeds, enters the final state `20`
via the non-EOS token `1`, and the resulting guide already reports
`is_finished() = true` — exactly what
`src/tests/test_guide.py::test_interface` asserts. -/
theorem isFinished_true_on_first_final_entry :
    (Guide.init testIndex).advance 1 =
        .ok (⟨testIndex, 20, [], 0⟩, [3]) ∧
      (1 : Nat) ≠ testIndex.eosTokenId ∧
      (Guide.mk testIndex 20 [] 0).isFinished = true := by
  exact ⟨by decide, by decide, by decide⟩

/-- **C1, amended.**  `is_finished()` returns true iff the current state
is final, regardless of which token entered it.  After every successful
`advance` the consumed token is never the EOS id, the finished flag
agrees with finality of the new current state, and (on a well-formed
index) a finished guide's just-returned allowed-token set is exactly
`[eos_id]`. -/
theorem isFinished_iff_current_final (g g2 : Guide) (tid : Nat)
    (ts : List Nat) (hwf : g.index.WellFormed)
    (hadv : g.advance tid = .ok (g2, ts)) :
    tid ≠ g.index.eosTokenId ∧
      (g2.isFinished = true ↔ g2.index.isFinalState g2.currentState = true) ∧
      (g2.isFinished = true → ts = [g.index.eosTokenId]) := by
  obtain ⟨heos, hns, hg2, hts⟩ := advance_ok_elim hadv
  refine ⟨heos, Iff.rfl, fun hfin => ?_⟩
  have hidx : g2.index = g.index := by rw [hg2]
  have hmem : g2.currentState ∈ g.index.finalStates := by
    have := (isFinalState_iff_mem g2.index g2.currentState).mp hfin
    rwa [hidx] at this
  have hrow := wellFormed_final_transMap hwf hmem
  rw [hts, Index.getAllowedTokens, hrow]
  rfl

/-- **C1, witness** for `isFinished_iff_current_final` at the pinned
index: `advance(1)` from the initial guide. -/
theorem isFinished_iff_current_final_witness :
    (1 : Nat) ≠ (Guide.init testIndex).index.eosTokenId ∧
      ((Guide.mk testIndex 20 [] 0).isFinished = true ↔
        (Guide.mk testIndex 20 [] 0).index.isFinalState
          (Guide.mk testIndex 20 [] 0).currentState = true) ∧
      ((Guide.mk testIndex 20 [] 0).isFinished = true →
        [3] = [(Guide.init testIndex).index.eosTokenId]) :=
  isFinished_iff_current_final (Guide.init testIndex) ⟨testIndex, 20, [], 0⟩ 1 [3]
    (by decide) (by decide)

/-- **C2, counterexample.**  The claim says that, because every final
state `f` has `transitions[f] = { eos_id → f }`, `advance(eos_id)` from a
final state succeeds and stays in `f`.  On the pinned index the final
state `20` does carry the EOS self-loop `3 → 20` in its transition map,
yet `advance(3)` from it fails with *NoTransition* — exactly what
`src/tests/test_guide.py::test_interface` asserts (`pytest.raises` around
`guide.advance(eos_token_id)`). -/
theorem advance_eos_self_loop_fails :
    testIndex.getNextState 20 3 = some 20 ∧
      testIndex.isFinalState 20 = true ∧
      (Guide.mk testIndex 20 [] 0).advance 3 = .error .noTransition := by
  exact ⟨by decide, by decide, by decide⟩

/-- **C2, amended.**  `advance(tid)` fails with *NoTransition* exactly
when `tid` is the EOS id or the transition map of the current state does
not contain `tid`; otherwise it succeeds, moving to `T[current][tid]`
(pushing the prior state onto the rollback ring) and returning the
allowed tokens of the new state.  Consequently, although
`transitions[f] = { eos_id → f }` for every final state `f` of a
well-formed index, no `advance` at all succeeds from a final state. -/
theorem advance_noTransition_characterization (g : Guide) (tid : Nat) :
    (g.advance tid = .error .noTransition ↔
      (tid = g.index.eosTokenId ∨
        g.index.getNextState g.currentState tid = none)) ∧
    (∀ s, tid ≠ g.index.eosTokenId →
      g.index.getNextState g.currentState tid = some s →
      g.advance tid =
        .ok ({ g with
               currentState := s
               rollback := (g.currentState :: g.rollback).take g.maxRollback },
             g.index.getAllowedTokens s)) ∧
    (g.index.WellFormed → g.index.isFinalState g.currentState = true →
      g.advance tid = .error .noTransition) := by
  refine ⟨?_, ?_, ?_⟩
  · constructor
    · intro herr
      by_cases heos : tid = g.index.eosTokenId
      · exact Or.inl heos
      · cases hns : g.index.getNextState g.currentState tid with
        | none => exact Or.inr rfl
        | some s => simp [Guide.advance, heos, hns] at herr
    · intro h
      rcases h with heos | hns
      · simp [Guide.advance, heos]
      · by_cases heos : tid = g.index.eosTokenId
        · simp [Guide.advance, heos]
        · simp [Guide.advance, heos, hns]
  · intro s heos hns
    simp [Guide.advance, heos, hns]
  · intro hwf hfin
    have hmem := (isFinalState_iff_mem _ _).mp hfin
    have hrow := wellFormed_final_transMap hwf hmem
    by_cases heos : tid = g.index.eosTokenId
    · simp [Guide.advance, heos]
    · have hns : g.index.getNextState g.currentState tid = none := by
        rw [Index.getNextState, hrow]
        have hbeq : (tid == g.index.eosTokenId) = false := by simpa using heos
        simp [List.lookup_cons, hbeq]
      simp [Guide.advance, heos, hns]

/-- **C2, witness** for `advance_noTransition_characterization`: from the
pinned final state `20`, `advance(3)` (the EOS id, present in the
transition map) fails. -/
theorem advance_noTransition_characterization_witness :
    (Guide.mk testIndex 20 [] 0).advance 3 = .error .noTransition :=
  (advance_noTransition_characterization ⟨testIndex, 20, [], 0⟩ 3).2.2
    (by decide) (by decide)

/-- **C4.**  `accepts_tokens(seq)` returns true iff folding `advance`
over a hypothetical copy of the guide succeeds at every step, and the
result depends only on the index and current state — the guide's own
rollback buffer (and bound) neither changes nor matters, the model of the
call leaving the guide itself untouched. -/
theorem acceptsTokens_iff_advance_fold_succeeds (g : Guide) (seq : List Nat) :
    g.acceptsTokens seq = (g.advanceSeq seq).isOk ∧
      ∀ r m, Guide.acceptsTokens ⟨g.index, g.currentState, r, m⟩ seq =
        g.acceptsTokens seq := by
  refine ⟨acceptsTokens_eq_advanceSeq_isOk g seq, fun r m => ?_⟩
  have h := acceptsTokens_rollback_independent g.index g.currentState
    r g.rollback m g.maxRollback seq
  exact h

/-- **C6, counterexample.**  The claim quantifies over every token `t`
allowed in the current state.  At the pinned final state `20` the guide
has `max_rollback = 3 ≥ 1` and the EOS id `3` is allowed
(`get_tokens() = [3]`), yet `advance(3)` fails with *NoTransition* — so
`advance(t); rollback_state(1)` cannot restore anything (the failed
advance consumes no rollback slot and `rollback_state(1)` on the empty
ring fails) — and the guide is, and stays, finished. -/
theorem advance_rollback_fails_at_final_state :
    (Guide.mk testIndex 20 [] 3).maxRollback = 3 ∧
      (3 : Nat) ∈ (Guide.mk testIndex 20 [] 3).getTokens ∧
      (Guide.mk testIndex 20 [] 3).advance 3 = .error .noTransition ∧
      (Guide.mk testIndex 20 [] 3).rollbackState 1 = .error .rollbackOverflow ∧
      (Guide.mk testIndex 20 [] 3).isFinished = true := by
  exact ⟨by decide, by decide, by decide, by decide, by decide⟩

/-- **C6, amended.**  For every guide with `max_rollback ≥ 1` and every
token whose `advance` succeeds (equivalently, every allowed token other
than the EOS id — at a final state of a well-formed index no advance
succeeds), `advance(t); rollback_state(1)` restores the current state and
the allowed-token set, and the guide is not finished afterwards. -/
theorem advance_then_rollback_restores (g g2 : Guide) (tid : Nat)
    (ts : List Nat) (hmax : 1 ≤ g.maxRollback) (hwf : g.index.WellFormed)
    (hadv : g.advance tid = .ok (g2, ts)) :
    ∃ g3, g2.rollbackState 1 = .ok g3 ∧
      g3.currentState = g.currentState ∧
      g3.getTokens = g.getTokens ∧
      g3.isFinished = false := by
  obtain ⟨heos, hns, hg2, hts⟩ := advance_ok_elim hadv
  obtain ⟨mr, hmr⟩ : ∃ mr, g.maxRollback = mr + 1 :=
    ⟨g.maxRollback - 1, by omega⟩
  have hrb : g2.rollback = g.currentState :: g.rollback.take mr := by
    rw [hg2]; simp [hmr]
  have hlen : ¬ g2.rollback.length < 1 := by rw [hrb]; simp
  have hnotfin := advance_ok_not_final hwf hadv
  refine ⟨{ g2 with
            currentState := g2.rollback.getD 0 g2.currentState
            rollback := g2.rollback.drop 1 }, ?_, ?_, ?_, ?_⟩
  · simp [Guide.rollbackState, hlen]
  · simp [hrb]
  · have hidx : g2.index = g.index := by rw [hg2]
    simp [Guide.getTokens, hidx, hrb]
  · have hidx : g2.index = g.index := by rw [hg2]
    simp only [Guide.isFinished, hidx, hrb]
    simpa using hnotfin

/-- **C6, witness** for `advance_then_rollback_restores`: on the pinned
index, `advance(1)` from the initial guide with `max_rollback = 3`, then
`rollback_state(1)`. -/
theorem advance_then_rollback_restores_witness :
    ∃ g3, (Guide.mk testIndex 20 [12] 3).rollbackState 1 = .ok g3 ∧
      g3.currentState = (Guide.mk testIndex 12 [] 3).currentState ∧
      g3.getTokens = (Guide.mk testIndex 12 [] 3).getTokens ∧
      g3.isFinished = false :=
  advance_then_rollback_restores ⟨testIndex, 12, [], 3⟩
    ⟨testIndex, 20, [12], 3⟩ 1 [3] (by decide) (by decide) (by decide)

theorem mem_flatten_insertBucket (key : List Nat) (id a : Nat) :
    ∀ t : List (List Nat × List Nat),
      a ∈ ((insertBucket key id t).map Prod.snd).flatten ↔
        a = id ∨ a ∈ (t.map Prod.snd).flatten := by
  intro t
  induction t with
  | nil => simp [insertBucket]
  | cons p t ih =>
      obtain ⟨k, ids⟩ := p
      by_cases hk : k = key
      · simp only [insertBucket, if_pos hk, List.map_cons, List.flatten_cons,
          List.mem_append, List.mem_singleton]
        tauto
      · simp only [insertBucket, if_neg hk, List.map_cons, List.flatten_cons,
          List.mem_append, ih]
        tauto

theorem allIds_insertBucket (key : List Nat) (id : Nat)
    (t : List (List Nat × List Nat)) :
    ((insertBucket key id t).map Prod.snd).flatten.toFinset =
      insert id ((t.map Prod.snd).flatten.toFinset) := by
  ext a
  simp only [List.mem_toFinset, Finset.mem_insert,
    mem_flatten_insertBucket key id a t]

theorem vocabulary_len_eq_card (v : Vocabulary) :
    v.len = v.allIds.toFinset.card + 1 := by
  rw [Vocabulary.len, List.card_toFinset]

/-- **C5.**  `len()` equals the number of unique token ids present across
all buckets plus one for the EOS id; inserting a fresh id raises the
count by one, inserting an already-present id (under another or the same
spelling) preserves it, and removing an absent key preserves it. -/
theorem vocabulary_len_counts_unique_ids (v : Vocabulary) (key : List Nat)
    (id : Nat) :
    v.len = v.allIds.toFinset.card + 1 ∧
      (∀ v2, v.insert key id = .ok v2 →
        v2.len = if id ∈ v.allIds then v.len else v.len + 1) ∧
      (v.get key = none → (v.remove key).len = v.len) := by
  refine ⟨vocabulary_len_eq_card v, ?_, ?_⟩
  · intro v2 h2
    have hok : v2 = { v with tokens := insertBucket key id v.tokens } := by
      by_cases heos : id = v.eosTokenId
      · simp [Vocabulary.insert, heos] at h2
      · simp only [Vocabulary.insert, if_neg heos] at h2
        exact (Except.ok.inj h2).symm
    subst hok
    have hset :
        ({ v with tokens := insertBucket key id v.tokens } :
          Vocabulary).allIds.toFinset = insert id v.allIds.toFinset :=
      allIds_insertBucket key id v.tokens
    simp only [vocabulary_len_eq_card]
    rw [hset]
    by_cases hmem : id ∈ v.allIds
    · rw [if_pos hmem]
      rw [Finset.insert_eq_self.mpr (List.mem_toFinset.mpr hmem)]
    · rw [if_neg hmem]
      rw [Finset.card_insert_of_not_mem (fun hc => hmem (List.mem_toFinset.mp hc))]
  · intro hget
    have hall : ∀ p ∈ v.tokens, p.1 ≠ key := by
      intro p hp
      have hne : ¬ key = p.1 := by
        simpa using List.lookup_eq_none_iff.mp hget p hp
      exact fun hc => hne hc.symm
    have hfil : v.tokens.filter (fun p => p.1 ≠ key) = v.tokens := by
      rw [List.filter_eq_self]
      intro p hp
      simpa using hall p hp
    rw [Vocabulary.remove]
    rw [hfil]

/-- **C5, witness** for `vocabulary_len_counts_unique_ids` at the
vocabulary of the tests (`eos = 3`, tokens `{"1": [1], "a": [2]}`):
`len = 3`, and inserting the fresh id `4` under key `"b"` gives
`len = 4`. -/
theorem vocabulary_len_counts_unique_ids_witness :
    (Vocabulary.mk 3 [([49], [1]), ([97], [2])]).len =
        (Vocabulary.mk 3 [([49], [1]), ([97], [2])]).allIds.toFinset.card + 1 ∧
      (Vocabulary.mk 3 [([49], [1]), ([97], [2]), ([98], [4])]).len =
        (Vocabulary.mk 3 [([49], [1]), ([97], [2])]).len + 1 := by
  have h := vocabulary_len_counts_unique_ids
    ⟨3, [([49], [1]), ([97], [2])]⟩ [98] 4
  refine ⟨h.1, ?_⟩
  have h2 := h.2.1 ⟨3, [([49], [1]), ([97], [2]), ([98], [4])]⟩ (by decide)
  rw [if_neg (by decide)] at h2
  exact h2

/-- **C8.**  A vocabulary built from UTF-8 text keys equals the one built
from the corresponding byte keys; lookup through a text key answers
exactly as lookup through its UTF-8 byte key on any vocabulary; and
consequently any index construction (a function of the vocabulary, which
the spec requires to be pure) yields equal indexes over the two. -/
theorem text_and_bytes_vocabularies_agree (eos : Nat)
    (pairs : List (List Nat × List Nat)) (v : Vocabulary) (cps : List Nat) :
    Vocabulary.new eos (pairs.map (fun p => (TokenKey.text p.1, p.2))) =
        Vocabulary.new eos
          (pairs.map (fun p => (TokenKey.bytes (utf8Encode p.1), p.2))) ∧
      v.getKey (TokenKey.text cps) =
        v.getKey (TokenKey.bytes (utf8Encode cps)) ∧
      ∀ build : Vocabulary → Index,
        (Vocabulary.new eos
            (pairs.map (fun p => (TokenKey.text p.1, p.2)))).map build =
          (Vocabulary.new eos
              (pairs.map (fun p =>
                (TokenKey.bytes (utf8Encode p.1), p.2)))).map build := by
  have h1 : Vocabulary.new eos (pairs.map (fun p => (TokenKey.text p.1, p.2))) =
      Vocabulary.new eos
        (pairs.map (fun p => (TokenKey.bytes (utf8Encode p.1), p.2))) := by
    have hcond :
        (pairs.map (fun p => (TokenKey.text p.1, p.2))).any
            (fun p => p.2.contains eos) =
          (pairs.map (fun p => (TokenKey.bytes (utf8Encode p.1), p.2))).any
            (fun p => p.2.contains eos) := by
      induction pairs with
      | nil => rfl
      | cons q qs ih =>
          simp only [List.map_cons, List.any_cons]
          rw [ih]
    simp only [Vocabulary.new, List.map_map, hcond]
    rfl
  exact ⟨h1, rfl, fun build => by rw [h1]⟩

theorem getD_set_self {α : Type} (l : List α) (i : Nat) (x d : α)
    (h : i < l.length) : (l.set i x).getD i d = x := by
  simp [List.getD_eq_getElem?_getD, List.getElem?_set_self h]

theorem getD_set_ne {α : Type} (l : List α) (i j : Nat) (x d : α)
    (h : i ≠ j) : (l.set i x).getD j d = l.getD j d := by
  simp [List.getD_eq_getElem?_getD, List.getElem?_set_ne h]

theorem maskStep_length (n : Nat) (buf : List Nat) (tid : Nat) :
    (maskStep n buf tid).length = buf.length := by
  unfold maskStep
  split <;> simp

theorem maskStep_getD (n : Nat) (buf : List Nat) (tid w : Nat)
    (hlen : buf.length = n) (hw : w < n) :
    (maskStep n buf tid).getD w 0 =
      if tid / 32 = w ∧ tid / 32 < n then
        buf.getD w 0 ||| (1 <<< (tid % 32))
      else buf.getD w 0 := by
  unfold maskStep
  by_cases hin : tid / 32 < n
  · rw [if_pos hin]
    by_cases heq : tid / 32 = w
    · subst heq
      rw [if_pos ⟨rfl, hin⟩]
      exact getD_set_self buf (tid / 32) _ 0 (by omega)
    · rw [if_neg (fun hc => heq hc.1)]
      exact getD_set_ne buf (tid / 32) w _ 0 heq
  · rw [if_neg hin, if_neg (fun hc => hin hc.2)]

theorem maskFill_fold_spec (n : Nat) :
    ∀ (ts : List Nat) (buf : List Nat), buf.length = n →
      (∀ w, w < n → buf.getD w 0 < 2 ^ 32) →
      (ts.foldl (maskStep n) buf).length = n ∧
        (∀ w, w < n → (ts.foldl (maskStep n) buf).getD w 0 < 2 ^ 32) ∧
        (∀ w b, w < n → b < 32 →
          ((ts.foldl (maskStep n) buf).getD w 0).testBit b =
            ((buf.getD w 0).testBit b || decide ((32 * w + b) ∈ ts))) := by
  intro ts
  induction ts with
  | nil =>
      intro buf hlen hbound
      refine ⟨hlen, hbound, ?_⟩
      intro w b hw hb
      simp
  | cons tid ts ih =>
      intro buf hlen hbound
      have hlen2 : (maskStep n buf tid).length = n := by
        rw [maskStep_length, hlen]
      have hbound2 : ∀ w, w < n → (maskStep n buf tid).getD w 0 < 2 ^ 32 := by
        intro w hw
        rw [maskStep_getD n buf tid w hlen hw]
        split
        · refine Nat.or_lt_two_pow (hbound w hw) ?_
          rw [Nat.one_shiftLeft]
          exact Nat.pow_lt_pow_right (by omega) (by omega)
        · exact hbound w hw
      obtain ⟨hl, hb2, htb⟩ := ih (maskStep n buf tid) hlen2 hbound2
      refine ⟨hl, hb2, ?_⟩
      intro w b hw hb
      rw [List.foldl_cons, htb w b hw hb, maskStep_getD n buf tid w hlen hw]
      have hmems : decide ((32 * w + b) ∈ tid :: ts) =
          (decide (32 * w + b = tid) || decide ((32 * w + b) ∈ ts)) := by
        simp [List.mem_cons]
      by_cases hdiv : tid / 32 = w ∧ tid / 32 < n
      · rw [if_pos hdiv, hmems]
        rw [Nat.testBit_or, Nat.one_shiftLeft, Nat.testBit_two_pow]
        have heqb : decide (tid % 32 = b) = decide (32 * w + b = tid) := by
          apply decide_eq_decide.mpr
          obtain ⟨h1, _⟩ := hdiv
          constructor
          · intro hmod; omega
          · intro heq; omega
        rw [heqb, Bool.or_assoc]
      · rw [if_neg hdiv]
        have hne : (32 * w + b) ≠ tid := by
          intro heq
          apply hdiv
          constructor <;> omega
        rw [hmems]
        rw [decide_eq_false hne]
        rw [Bool.false_or]

/-- **C3.**  After `write_mask_into(ptr, n_elements, 4)` succeeds, bit
`k mod 32` of word `k / 32` is set iff token id `k` is allowed in the
current state, for every `k < 32 * n_elements`; every other bit of every
word is zero; and the result is the same for any prior buffer contents
(the call overwrites the whole buffer). -/
theorem writeMaskInto_encodes_allowed_set (g : Guide) (prior : List Nat)
    (nElements : Nat) (h1 : 1 ≤ nElements) :
    g.writeMaskInto prior nElements 4 = .ok (maskFill g.getTokens nElements) ∧
      (maskFill g.getTokens nElements).length = nElements ∧
      (∀ k, k < 32 * nElements →
        ((maskFill g.getTokens nElements).getD (k / 32) 0).testBit (k % 32) =
          decide (k ∈ g.getTokens)) ∧
      (∀ w b, w < nElements → 32 ≤ b →
        ((maskFill g.getTokens nElements).getD w 0).testBit b = false) ∧
      (∀ prior2, g.writeMaskInto prior2 nElements 4 =
        g.writeMaskInto prior nElements 4) := by
  have hn0 : nElements ≠ 0 := by omega
  have hrep : (List.replicate nElements (0 : Nat)).length = nElements := by simp
  have hrb : ∀ w, w < nElements →
      (List.replicate nElements (0 : Nat)).getD w 0 < 2 ^ 32 := by
    intro w hw
    simp [List.getD_eq_getElem?_getD, List.getElem?_replicate_of_lt hw]
  obtain ⟨hl, hbd, htb⟩ :=
    maskFill_fold_spec nElements g.getTokens _ hrep hrb
  refine ⟨?_, hl, ?_, ?_, ?_⟩
  · simp [Guide.writeMaskInto, hn0]
  · intro k hk
    have hw : k / 32 < nElements := by omega
    have hb : k % 32 < 32 := by omega
    have h3 := htb (k / 32) (k % 32) hw hb
    have hzero : (List.replicate nElements (0 : Nat)).getD (k / 32) 0 = 0 := by
      simp [List.getD_eq_getElem?_getD, List.getElem?_replicate_of_lt hw]
    have hk2 : 32 * (k / 32) + k % 32 = k := by omega
    show ((g.getTokens.foldl (maskStep nElements)
        (List.replicate nElements 0)).getD (k / 32) 0).testBit (k % 32) =
      decide (k ∈ g.getTokens)
    rw [h3, hzero, hk2]
    simp
  · intro w b hw hb
    show ((g.getTokens.foldl (maskStep nElements)
        (List.replicate nElements 0)).getD w 0).testBit b = false
    exact Nat.testBit_lt_two_pow
      (lt_of_lt_of_le (hbd w hw) (Nat.pow_le_pow_right (by omega) hb))
  · intro prior2
    rfl

/-- **C3, witness** for `writeMaskInto_encodes_allowed_set` at the pinned
index's initial guide (allowed tokens `[1, 2]`) with a one-word buffer:
the call succeeds, bit 1 encodes the allowed token `1`, and bit 32 of the
word is zero. -/
theorem writeMaskInto_encodes_allowed_set_witness :
    (Guide.init testIndex).writeMaskInto [7] 1 4 =
        .ok (maskFill (Guide.init testIndex).getTokens 1) ∧
      ((maskFill (Guide.init testIndex).getTokens 1).getD 0 0).testBit 1 =
        decide ((1 : Nat) ∈ (Guide.init testIndex).getTokens) ∧
      ((maskFill (Guide.init testIndex).getTokens 1).getD 0 0).testBit 32 =
        false := by
  have h := writeMaskInto_encodes_allowed_set (Guide.init testIndex) [7] 1
    (by decide)
  exact ⟨h.1, h.2.2.1 1 (by decide), h.2.2.2.1 0 32 (by decide) (by decide)⟩

/-- **C9.**  `allocate_token_bitmask(vocab_size)` returns a
`(1, (vocab_size + 31) // 32)` buffer — `(vocab_size + 31) // 32` being
exactly `ceil(vocab_size / 32)`, the least word count covering
`vocab_size` bits — every element of which is `-1`, whose 32-bit two's
complement pattern has all 32 bits set; a gpt2-sized vocabulary of 50257
ids yields exactly 1571 words. -/
theorem allocateTokenBitmask_spec (vocabSize : Nat) (h : 1 ≤ vocabSize) :
    (allocateTokenBitmask vocabSize).length = 1 ∧
      ((allocateTokenBitmask vocabSize).headD []).length =
        (vocabSize + 31) / 32 ∧
      vocabSize ≤ 32 * ((vocabSize + 31) / 32) ∧
      32 * ((vocabSize + 31) / 32) < vocabSize + 32 ∧
      (∀ x ∈ (allocateTokenBitmask vocabSize).headD [], x = -1) ∧
      (∀ b, b < 32 → (int32Bits (-1)).testBit b = true) ∧
      ((allocateTokenBitmask 50257).headD []).length = 1571 := by
  refine ⟨rfl, by simp [allocateTokenBitmask], by omega, by omega, ?_, ?_, ?_⟩
  · intro x hx
    exact List.eq_of_mem_replicate (by simpa [allocateTokenBitmask] using hx)
  · intro b hb
    have hval : int32Bits (-1) = 2 ^ 32 - 1 := by decide
    rw [hval]
    rw [Nat.testBit_two_pow_sub_one]
    simpa using hb
  · show (List.replicate ((50257 + 31) / 32) (-1 : Int)).length = 1571
    rw [List.length_replicate]

/-- **C9, witness** for `allocateTokenBitmask_spec` at the gpt2-sized
vocabulary of 50257 ids. -/
theorem allocateTokenBitmask_spec_witness :
    ((allocateTokenBitmask 50257).headD []).length = 1571 ∧
      (allocateTokenBitmask 50257).length = 1 ∧
      50257 ≤ 32 * 1571 := by
  have h := allocateTokenBitmask_spec 50257 (by decide)
  exact ⟨h.2.2.2.2.2.2, h.1, h.2.2.1⟩

theorem getD_append_left {α : Type} (a b : List α) (j : Nat) (d : α)
    (h : j < a.length) : (a ++ b).getD j d = a.getD j d := by
  simp [List.getD_eq_getElem?_getD, List.getElem?_append_left h]

theorem getD_append_right {α : Type} (a b : List α) (j : Nat) (d : α)
    (h : a.length ≤ j) : (a ++ b).getD j d = b.getD (j - a.length) d := by
  simp [List.getD_eq_getElem?_getD, List.getElem?_append_right h]

theorem getD_take_lt {α : Type} (l : List α) (n j : Nat) (d : α) (h : j < n) :
    (l.take n).getD j d = l.getD j d := by
  simp [List.getD_eq_getElem?_getD, List.getElem?_take_of_lt h]

theorem getD_replicate_lt {α : Type} (n j : Nat) (d x : α) (h : j < n) :
    (List.replicate n x).getD j d = x := by
  simp [List.getD_eq_getElem?_getD, List.getElem?_replicate_of_lt h]

theorem shift_and_one_eq_zero_iff (m bit : Nat) :
    ((m >>> bit) &&& 1 = 0) ↔ m.testBit bit = false := by
  rw [Nat.and_one_is_mod, Nat.shiftRight_eq_div_pow, Nat.testBit_to_div_mod]
  constructor
  · intro h
    exact decide_eq_false (by omega)
  · intro h
    have h2 := of_decide_eq_false h
    omega

theorem applyBits_length {α : Type} (ninf : α) (mval : Nat) (base : Nat) :
    ∀ (left bit : Nat) (r : List α),
      (applyBits ninf mval base bit left r).length = r.length := by
  intro left
  induction left with
  | zero => intro bit r; rfl
  | succ left ih =>
      intro bit r
      simp only [applyBits]
      split
      · rw [ih]
        split <;> simp
      · rfl

theorem applyBits_getD {α : Type} (ninf : α) (mval : Nat) (base : Nat) (d : α) :
    ∀ (left bit : Nat) (r : List α) (j : Nat),
      (applyBits ninf mval base bit left r).getD j d =
        if base + bit ≤ j ∧ j < base + bit + left ∧ j < r.length ∧
            mval.testBit (j - base) = false
        then ninf else r.getD j d := by
  intro left
  induction left with
  | zero =>
      intro bit r j
      rw [if_neg (by rintro ⟨h1, h2, _, _⟩; omega)]
      rfl
  | succ left ih =>
      intro bit r j
      simp only [applyBits]
      by_cases hbr : base + bit < r.length
      · rw [if_pos hbr, ih (bit + 1)]
        by_cases hcl : (mval >>> bit) &&& 1 = 0
        · have htb := (shift_and_one_eq_zero_iff mval bit).mp hcl
          rw [if_pos hcl, List.length_set]
          by_cases hj : j = base + bit
          · subst hj
            rw [getD_set_self r (base + bit) ninf d hbr]
            rw [if_neg (by rintro ⟨h1, _, _, _⟩; omega)]
            have hsub : base + bit - base = bit := by omega
            rw [if_pos ⟨by omega, by omega, hbr, by rw [hsub]; exact htb⟩]
          · rw [getD_set_ne r (base + bit) j ninf d (fun hc => hj hc.symm)]
            by_cases hc2 : base + bit ≤ j ∧ j < base + bit + (left + 1) ∧
                j < r.length ∧ mval.testBit (j - base) = false
            · obtain ⟨c1, c2, c3, c4⟩ := hc2
              rw [if_pos ⟨by omega, by omega, c3, c4⟩]
              rw [if_pos ⟨c1, c2, c3, c4⟩]
            · rw [if_neg (fun hc =>
                  hc2 ⟨by omega, by omega, hc.2.2.1, hc.2.2.2⟩)]
              rw [if_neg hc2]
        · rw [if_neg hcl]
          have htb : mval.testBit bit = true := by
            rcases Bool.eq_false_or_eq_true (mval.testBit bit) with h | h
            · exact h
            · exact absurd ((shift_and_one_eq_zero_iff mval bit).mpr h) hcl
          by_cases hj : j = base + bit
          · subst hj
            rw [if_neg (by rintro ⟨h1, _, _, _⟩; omega)]
            have hsub : base + bit - base = bit := by omega
            rw [if_neg (by
              rintro ⟨_, _, _, h4⟩
              rw [hsub, htb] at h4
              exact absurd h4 (by simp))]
          · by_cases hc2 : base + bit ≤ j ∧ j < base + bit + (left + 1) ∧
                j < r.length ∧ mval.testBit (j - base) = false
            · obtain ⟨c1, c2, c3, c4⟩ := hc2
              rw [if_pos ⟨by omega, by omega, c3, c4⟩]
              rw [if_pos ⟨c1, c2, c3, c4⟩]
            · rw [if_neg (fun hc =>
                  hc2 ⟨by omega, by omega, hc.2.2.1, hc.2.2.2⟩)]
              rw [if_neg hc2]
      · rw [if_neg hbr]
        rw [if_neg (by rintro ⟨h1, _, h3, _⟩; omega)]

theorem applyRowWords_spec {α : Type} (ninf : α) (mrow : List Int) (d : α) :
    ∀ (maskLen : Nat) (row : List α),
      (applyRowWords ninf mrow maskLen row).length = row.length ∧
      ∀ j, (applyRowWords ninf mrow maskLen row).getD j d =
        if j < 32 * maskLen ∧ j < row.length ∧
            (int32Bits (mrow.getD (j / 32) 0)).testBit (j % 32) = false
        then ninf else row.getD j d := by
  intro maskLen
  induction maskLen with
  | zero =>
      intro row
      refine ⟨rfl, fun j => ?_⟩
      rw [if_neg (by rintro ⟨h1, _, _⟩; omega)]
      rfl
  | succ m ih =>
      intro row
      have hunf : applyRowWords ninf mrow (m + 1) row =
          applyBits ninf (int32Bits (mrow.getD m 0)) (m * 32) 0 32
            (applyRowWords ninf mrow m row) := by
        unfold applyRowWords
        rw [List.range_succ, List.foldl_append, List.foldl_cons, List.foldl_nil]
      obtain ⟨ihlen, ihget⟩ := ih row
      constructor
      · rw [hunf, applyBits_length, ihlen]
      · intro j
        rw [hunf, applyBits_getD, ihlen, ihget j]
        by_cases hwin : m * 32 ≤ j ∧ j < m * 32 + 32
        · have hdj : j / 32 = m := by omega
          have hmj : j % 32 = j - m * 32 := by omega
          by_cases hrest : j < row.length ∧
              (int32Bits (mrow.getD (j / 32) 0)).testBit (j % 32) = false
          · obtain ⟨hr1, hr2⟩ := hrest
            rw [if_pos ⟨by omega, by omega, hr1, by
              rw [← hmj, ← hdj]; exact hr2⟩]
            rw [if_pos ⟨by omega, hr1, hr2⟩]
          · rw [if_neg (fun hc =>
                hrest ⟨hc.2.2.1, by rw [hdj, hmj]; exact hc.2.2.2⟩)]
            rw [if_neg (fun hc => absurd hc.1 (by omega))]
            rw [if_neg (fun hc => hrest ⟨hc.2.1, hc.2.2⟩)]
        · rw [if_neg (fun hc => hwin ⟨by omega, by omega⟩)]
          by_cases hlt : j < 32 * m
          · by_cases hrest : j < row.length ∧
                (int32Bits (mrow.getD (j / 32) 0)).testBit (j % 32) = false
            · rw [if_pos ⟨hlt, hrest.1, hrest.2⟩]
              rw [if_pos ⟨by omega, hrest.1, hrest.2⟩]
            · rw [if_neg (fun hc => hrest ⟨hc.2.1, hc.2.2⟩)]
              rw [if_neg (fun hc => hrest ⟨hc.2.1, hc.2.2⟩)]
          · rw [if_neg (fun hc => hlt hc.1)]
            rw [if_neg (fun hc => absurd hc.1 (by omega))]

/-- **C10.**  After the numpy kernel runs on a 2-D logits array and a 2-D
int32 mask with the same batch size, entry `(i, j)` is unchanged when
`j < 32 * mask_cols` and bit `j mod 32` of `mask[i][j div 32]` is 1, and
is the masked-out value (`-inf`) otherwise — including every column
`j ≥ 32 * mask_cols`. -/
theorem applyTokenBitmask_spec {α : Type} (ninf : α) (logits : List (List α))
    (mask : List (List Int))
    (hbatch : mask.length = logits.length)
    (hrect : ∀ mrow ∈ mask, mrow.length = (mask.headD []).length) :
    (applyTokenBitmaskKernel ninf logits mask).length = logits.length ∧
      ∀ (i j : Nat) (row : List α) (mrow : List Int) (out : List α) (d : α),
        logits[i]? = some row → mask[i]? = some mrow →
        (applyTokenBitmaskKernel ninf logits mask)[i]? = some out →
        j < row.length →
        out.getD j d =
          if j < 32 * (mask.headD []).length ∧
              (int32Bits (mrow.getD (j / 32) 0)).testBit (j % 32) = true
          then row.getD j d else ninf := by
  have hkdef : applyTokenBitmaskKernel ninf logits mask =
      (logits.zip mask).map
        (fun p =>
          applyRowWords ninf p.2 (mask.headD []).length
              (p.1.take (32 * (mask.headD []).length)) ++
            List.replicate (p.1.length - 32 * (mask.headD []).length) ninf) :=
    rfl
  constructor
  · rw [hkdef, List.length_map, List.length_zip, hbatch, Nat.min_self]
  · intro i j row mrow out d hrow hmrow hout hj
    have hzip : (logits.zip mask)[i]? = some (row, mrow) :=
      List.getElem?_zip_eq_some.mpr ⟨hrow, hmrow⟩
    have hker : (applyTokenBitmaskKernel ninf logits mask)[i]? =
        some (applyRowWords ninf mrow (mask.headD []).length
            (row.take (32 * (mask.headD []).length)) ++
          List.replicate (row.length - 32 * (mask.headD []).length) ninf) := by
      rw [hkdef, List.getElem?_map, hzip]
      rfl
    rw [hout] at hker
    have hout2 := Option.some.inj hker
    subst hout2
    obtain ⟨hrwlen, hrwget⟩ :=
      applyRowWords_spec ninf mrow d (mask.headD []).length
        (row.take (32 * (mask.headD []).length))
    have htklen : (row.take (32 * (mask.headD []).length)).length =
        min (32 * (mask.headD []).length) row.length := by
      rw [List.length_take]
    by_cases hcut : j < 32 * (mask.headD []).length
    · have hjtk : j < (row.take (32 * (mask.headD []).length)).length := by
        rw [htklen]; omega
      rw [getD_append_left _ _ j d (by rw [hrwlen]; exact hjtk)]
      rw [hrwget j]
      by_cases htb : (int32Bits (mrow.getD (j / 32) 0)).testBit (j % 32) = true
      · rw [if_neg (fun hc => by
          rw [htb] at hc
          exact absurd hc.2.2 (by simp))]
        rw [getD_take_lt row _ j d hcut]
        rw [if_pos ⟨hcut, htb⟩]
      · have htb2 : (int32Bits (mrow.getD (j / 32) 0)).testBit (j % 32) =
            false := Bool.eq_false_iff.mpr htb
        rw [if_pos ⟨hcut, hjtk, htb2⟩]
        rw [if_neg (fun hc => htb hc.2)]
    · have hsz : min (32 * (mask.headD []).length) row.length =
          32 * (mask.headD []).length := by omega
      rw [getD_append_right _ _ j d (by rw [hrwlen, htklen, hsz]; omega)]
      rw [hrwlen, htklen, hsz]
      rw [getD_replicate_lt _ _ _ _ (by omega)]
      rw [if_neg (fun hc => absurd hc.1 (by omega))]

/-- **C10, witness** for `applyTokenBitmask_spec`: a one-row logits array
of four entries against the one-word mask `[6]` (bits 1 and 2 set) —
column 1 keeps its value, column 0 is masked out. -/
theorem applyTokenBitmask_spec_witness :
    ([(-1000 : Int), 20, 30, -1000].getD 1 0 =
        if 1 < 32 * ((([[6]] : List (List Int)).headD []).length) ∧
            (int32Bits (([6] : List Int).getD (1 / 32) 0)).testBit (1 % 32) =
              true
        then ([10, 20, 30, 40] : List Int).getD 1 0 else -1000) ∧
      ([(-1000 : Int), 20, 30, -1000].getD 0 0 =
        if 0 < 32 * ((([[6]] : List (List Int)).headD []).length) ∧
            (int32Bits (([6] : List Int).getD (0 / 32) 0)).testBit (0 % 32) =
              true
        then ([10, 20, 30, 40] : List Int).getD 0 0 else -1000) := by
  have h := applyTokenBitmask_spec (-1000 : Int) [[10, 20, 30, 40]] [[6]]
    (by decide) (by decide)
  exact ⟨h.2 0 1 [10, 20, 30, 40] [6] [-1000, 20, 30, -1000] 0
      (by decide) (by decide) (by decide) (by decide),
    h.2 0 0 [10, 20, 30, 40] [6] [-1000, 20, 30, -1000] 0
      (by decide) (by decide) (by decide) (by decide)⟩

/-- **C7.**  `deserialize(serialize(x)) = x` for every Vocabulary, Index
and Guide; the Guide's byte serialization captures the index, the
current state and the rollback buffer (together with the rollback
bound). -/
theorem serialize_roundtrip (v : Vocabulary) (idx : Index) (g : Guide) :
    Vocabulary.deserialize v.serialize = some v ∧
      Index.deserialize idx.serialize = some idx ∧
      Guide.deserialize g.serialize = some g ∧
      Guide.deserialize g.serialize =
        some ⟨g.index, g.currentState, g.rollback, g.maxRollback⟩ :=
  ⟨vocabulary_deserialize_serialize v, index_deserialize_serialize idx,
    guide_deserialize_serialize g, guide_deserialize_serialize g⟩

/-- **C4, witness** for `acceptsTokens_iff_advance_fold_succeeds` at the
pinned index and the test sequence `[2, 3]`. -/
theorem acceptsTokens_iff_advance_fold_succeeds_witness :
    (Guide.init testIndex).acceptsTokens [2, 3] =
        ((Guide.init testIndex).advanceSeq [2, 3]).isOk ∧
      Guide.acceptsTokens ⟨testIndex, 12, [7], 5⟩ [2, 3] =
        (Guide.init testIndex).acceptsTokens [2, 3] :=
  ⟨(acceptsTokens_iff_advance_fold_succeeds (Guide.init testIndex) [2, 3]).1,
    (acceptsTokens_iff_advance_fold_succeeds (Guide.init testIndex) [2, 3]).2
      [7] 5⟩

/-- **C7, witness** for `serialize_roundtrip` at the pinned index, its
initial guide, and the test vocabulary. -/
theorem serialize_roundtrip_witness :
    Vocabulary.deserialize
        (Vocabulary.mk 3 [([49], [1]), ([50], [2])]).serialize =
        some (Vocabulary.mk 3 [([49], [1]), ([50], [2])]) ∧
      Index.deserialize testIndex.serialize = some testIndex ∧
      Guide.deserialize (Guide.init testIndex).serialize =
        some (Guide.init testIndex) :=
  ⟨(serialize_roundtrip ⟨3, [([49], [1]), ([50], [2])]⟩ testIndex
      (Guide.init testIndex)).1,
    (serialize_roundtrip ⟨3, [([49], [1]), ([50], [2])]⟩ testIndex
      (Guide.init testIndex)).2.1,
    (serialize_roundtrip ⟨3, [([49], [1]), ([50], [2])]⟩ testIndex
      (Guide.init testIndex)).2.2.1⟩

/-- **C8, witness** for `text_and_bytes_vocabularies_agree` at the token
map of the tests (`{"a": [1], "b": [2], "z": [3]}` with `eos = 4`). -/
theorem text_and_bytes_vocabularies_agree_witness :
    Vocabulary.new 4
        ([([97], [1]), ([98], [2]), ([122], [3])].map
          (fun p => (TokenKey.text p.1, p.2))) =
      Vocabulary.new 4
        ([([97], [1]), ([98], [2]), ([122], [3])].map
          (fun p => (TokenKey.bytes (utf8Encode p.1), p.2))) :=
  (text_and_bytes_vocabularies_agree 4 [([97], [1]), ([98], [2]), ([122], [3])]
    ⟨4, []⟩ []).1

end OutlinesCore
